import Mathlib

/-!
Formal model of the Endive proof-assistant core (a Python code base) and
proofs about its specified properties.

Modelling conventions, chosen to follow the source closely:

* `Object` (src/src/core/objects.py) is a dataclass with fields `type`,
  `children`, `handle`, `repr_func`, `data`.  Its `__eq__`/`__hash__`
  explicitly ignore `repr_func` and `data`, and no control flow of the
  operations modelled here reads them, so the model keeps only
  `(type, handle, children)`.  `handle` is `Optional[str]` in the source
  (`None` for `Comp` nodes), hence `Option String` here.
* Python `dict`s are modelled as association lists with unique keys and
  Python's operational semantics (`PyDict.set` updates an existing key in
  place, otherwise appends; `update` folds `set`).
* Python exceptions (`AttributeError` from the `.left`/`.right` properties
  on nodes without exactly two children, `ValueError` from `reduce`'s step
  bound and from `wrap_rule`, `TypeError` from string operations on `None`)
  are modelled with `Except String`; a raised exception propagates through
  the `do`-notation exactly as it propagates through the Python call stack.
* The buildability checker `check` (src/src/core/buildability.py) passes
  `dict(context)` — a shallow copy — to `dict_add`, which appends to the
  list stored under an existing key.  The lists are therefore shared
  (aliased) between the caller's dict and the copy.  To capture this the
  model gives `check` a heap of lists (`Store`); a context maps keys to
  indices into the heap, `dict(context)` is the identity on the key-to-index
  map (refs shared), and `dict_add` mutates the heap.
-/

namespace Endive

/-- Core AST object (src/src/core/objects.py `Object`): a type tag, an
optional handle (constructor name / rewriting symbol / hole name), and a
list of children.  `repr_func` and `data` are omitted: the source's
`__eq__` and `__hash__` ignore them and they never influence the control
flow of the operations modelled here. -/
inductive Object where
  | mk (ty : String) (handle : Option String) (children : List Object)

/-- Type tag of an object (the Python `type` field). -/
def Object.ty : Object → String
  | .mk t _ _ => t

/-- Handle of an object (the Python `handle` field). -/
def Object.handle : Object → Option String
  | .mk _ h _ => h

/-- Children of an object (the Python `children` tuple, as a list). -/
def Object.children : Object → List Object
  | .mk _ _ cs => cs

mutual
/-- Decidable structural equality for `Object`, mirroring the source
`__eq__`: same type, same handle, pairwise-equal children. -/
def decEqObject : (a b : Object) → Decidable (a = b)
  | .mk t1 h1 cs1, .mk t2 h2 cs2 =>
    if ht : t1 = t2 then
      if hh : h1 = h2 then
        match decEqObjectList cs1 cs2 with
        | isTrue hc => isTrue (by rw [ht, hh, hc])
        | isFalse hc => isFalse (by intro h; injection h; contradiction)
      else isFalse (by intro h; injection h; contradiction)
    else isFalse (by intro h; injection h; contradiction)
/-- Decidable equality for lists of objects (helper for `decEqObject`). -/
def decEqObjectList : (as bs : List Object) → Decidable (as = bs)
  | [], [] => isTrue rfl
  | [], _ :: _ => isFalse (by intro h; injection h)
  | _ :: _, [] => isFalse (by intro h; injection h)
  | a :: as, b :: bs =>
    match decEqObject a b with
    | isTrue h1 =>
      match decEqObjectList as bs with
      | isTrue h2 => isTrue (by rw [h1, h2])
      | isFalse h2 => isFalse (by intro h; injection h; contradiction)
    | isFalse h1 => isFalse (by intro h; injection h; contradiction)
end

instance : DecidableEq Object := decEqObject

deriving instance DecidableEq for Except

/-- Error monad used to model Python exceptions. -/
abbrev EM := Except String

/-- The `.left` property: first child of a node with exactly two children,
`AttributeError` otherwise (src/src/core/objects.py lines 44-48). -/
def Object.leftE : Object → EM Object
  | .mk _ _ [l, _] => pure l
  | _ => .error ("AttributeError: Object does not have left attribute")

/-- The `.right` property: second child of a node with exactly two children,
`AttributeError` otherwise (src/src/core/objects.py lines 50-54). -/
def Object.rightE : Object → EM Object
  | .mk _ _ [_, r] => pure r
  | _ => .error ("AttributeError: Object does not have right attribute")

/-- The `.symbol` property: an alias for `handle`. -/
def Object.symbol (o : Object) : Option String := o.handle

/-- The `Term` constructor (src/src/core/objects.py): a constructor
application node. -/
def Term (name : String) (arguments : List Object) : Object :=
  .mk ("Term") (some name) arguments

/-- The `Rew` constructor: a rewriting node with two children. -/
def Rew (left : Object) (symbol : String) (right : Object) : Object :=
  .mk ("Rew") (some symbol) [left, right]

/-- The `Comp` constructor: a composition node (handle `None`). -/
def Comp (left : Object) (right : Object) : Object :=
  .mk ("Comp") none [left, right]

/-- The `Hole` constructor: a pattern variable with no children. -/
def Hole (name : String) : Object :=
  .mk ("Hole") (some name) []

/-- The `identify` function (src/src/core/objects.py): the reflexive
rewriting `Rew(A, rule, A)`.  Declared with a `str` annotation in the
source but called with the `Optional` `B.symbol` in `compose`, so the
symbol is `Option String` here. -/
def identify (A : Object) (rule : Option String) : Object :=
  .mk ("Rew") rule [A, A]

/-- The `get_child` navigation helper (src/src/core/objects.py lines
101-115): follow a sequence of integer indices, returning `none` as soon
as one is negative or out of bounds.  The Python body's `try/except` can
never fire after the explicit bounds check, so the model is this total
function. -/
def get_child (obj : Object) : List Int → Option Object
  | [] => some obj
  | index :: rest =>
    if h : index < 0 ∨ (obj.children.length : Int) ≤ index then none
    else get_child (obj.children.get ⟨index.toNat, by push_neg at h; omega⟩) rest

namespace PyDict

/-- First-match lookup in an association list: Python `d.get(k)` / `d[k]`. -/
def get? {κ ν : Type} [DecidableEq κ] : List (κ × ν) → κ → Option ν
  | [], _ => none
  | p :: rest, k => if p.1 = k then some p.2 else get? rest k

/-- Python `k in d`. -/
def contains {κ ν : Type} [DecidableEq κ] (d : List (κ × ν)) (k : κ) : Bool :=
  (get? d k).isSome

/-- Python `d[k] = v`: update the first binding of `k` in place, or append
a new binding at the end. -/
def set {κ ν : Type} [DecidableEq κ] : List (κ × ν) → κ → ν → List (κ × ν)
  | [], k, v => [(k, v)]
  | p :: rest, k, v => if p.1 = k then (k, v) :: rest else p :: set rest k v

/-- Python `d.update(e)`: fold `set` over `e`'s bindings in order. -/
def update {κ ν : Type} [DecidableEq κ] (d e : List (κ × ν)) : List (κ × ν) :=
  e.foldl (fun acc p => set acc p.1 p.2) d

end PyDict

/-- Append-only union used to model Python `set.update`: keep the left
operand's elements, then the right operand's elements not already present.
Python set iteration order is implementation-defined; this model fixes a
first-encounter order, and no property proved below depends on the order,
only on membership. -/
def setUnion {α : Type} [DecidableEq α] (s t : List α) : List α :=
  s ++ t.filter (fun x => ¬ x ∈ s)

mutual
/-- The `get_hole_names` helper (src/src/core/utils.py): the set of handles
of `Hole`-typed nodes, collected without descending into a `Hole` node's
children (constructed holes have none). -/
def get_hole_names : Object → List (Option String)
  | .mk ty hd cs => if ty = "Hole" then [hd] else ghnList cs
/-- Hole names of a list of objects, in first-encounter order. -/
def ghnList : List Object → List (Option String)
  | [] => []
  | c :: cs => setUnion (get_hole_names c) (ghnList cs)
end

/-- Assignment map from hole name to object (Python `Dict[str, Object]`;
keys are the `Optional` handles of hole nodes). -/
abbrev AMap := List (Option String × Object)

/-- Rename map used by `compose_rews` (Python `Dict[str, str]`). -/
abbrev RMap := List (Option String × String)

mutual
/-- The `rename_holes` function (src/src/core/operations.py lines 14-24):
rename hole handles according to the map.  A renamed hole is rebuilt via
the `Hole` constructor (so with no children); any other node is rebuilt
with renamed children. -/
def rename_holes : Object → RMap → Object
  | t@(.mk ty hd cs), m =>
    if ty = "Hole" then
      let new_handle : Option String :=
        match PyDict.get? m hd with
        | some n => some n
        | none => hd
      if new_handle ≠ hd then .mk ("Hole") new_handle [] else t
    else .mk ty hd (renameList cs m)
/-- Children traversal of `rename_holes`. -/
def renameList : List Object → RMap → List Object
  | [], _ => []
  | c :: cs, m => rename_holes c m :: renameList cs m
end

mutual
/-- The `match_left` one-directional matcher (src/src/core/operations.py
lines 26-53).  Note that the source re-creates `assignments = {}` at every
recursive call, so the `B.handle in assignments` consistency test always
inspects an empty dict; sibling results are merged with `dict.update`,
later assignments overwriting earlier ones.  The model reproduces this
exactly. -/
def match_left : Object → Object → Option AMap
  | A@(.mk aty ah acs), .mk bty bh bcs =>
    -- assignments = {} (fresh at every call)
    let assignments : AMap := []
    if bty = "Hole" then
      match PyDict.get? assignments bh with
      | some v => if v = A then some assignments else none
      | none => some (PyDict.set assignments bh A)
    else if aty ≠ bty then none
    else if ah ≠ bh ∨ acs.length ≠ bcs.length then none
    else matchLeftList acs bcs assignments
/-- The `zip` loop of `match_left`: match the children pairwise, merging
each child's assignments into the accumulator with `dict.update`. -/
def matchLeftList : List Object → List Object → AMap → Option AMap
  | a :: as, b :: bs, acc =>
    match match_left a b with
    | none => none
    | some found => matchLeftList as bs (PyDict.update acc found)
  | _, _, acc => some acc
end

mutual
/-- The bidirectional unifier `match` (src/src/core/operations.py lines
56-97), called `match'` because `match` is reserved in Lean.  The
`assignments` parameter threads through sibling children; the source's
`assignments=None` default corresponds to passing `[]`. -/
def match' : Object → Object → AMap → Option AMap
  | A@(.mk aty ah acs), B@(.mk bty bh bcs), assignments =>
    if bty = "Hole" then
      match PyDict.get? assignments bh with
      | some v => if v = A then some assignments else none
      | none => some (PyDict.set assignments bh A)
    else if aty = "Hole" then
      match PyDict.get? assignments ah with
      | some v => if v = B then some assignments else none
      | none => some (PyDict.set assignments ah B)
    else if aty ≠ bty then none
    else if ah ≠ bh ∨ acs.length ≠ bcs.length then none
    else matchList acs bcs assignments
/-- The `zip` loop of `match`: unify the children pairwise, threading the
assignment map left to right. -/
def matchList : List Object → List Object → AMap → Option AMap
  | a :: as, b :: bs, assignments =>
    match match' a b assignments with
    | none => none
    | some assignments' => matchList as bs assignments'
  | _, _, assignments => some assignments
end

mutual
/-- The substitution `apply` (src/src/core/operations.py lines 100-111):
replace each hole bound in the map by its value; unbound holes and
non-hole nodes are returned with substituted children. -/
def apply : Object → AMap → Object
  | B@(.mk ty hd cs), assignments =>
    if ty = "Hole" then
      match PyDict.get? assignments hd with
      | some v => v
      | none => B
    else .mk ty hd (applyList cs assignments)
/-- Children traversal of `apply`. -/
def applyList : List Object → AMap → List Object
  | [], _ => []
  | c :: cs, assignments => apply c assignments :: applyList cs assignments
end

/-- A string of `n` primes, used to describe the names generated by the
renaming loop of `compose_rews`. -/
def primes : Nat → String
  | 0 => ""
  | n + 1 => "'" ++ primes n

/-- The `while new_name in reserved_names: new_name += "'"` loop of
`compose_rews`.  The fuel `reserved.length + 1` is an upper bound on the
number of iterations: the candidate names are pairwise distinct, so one of
the first `reserved.length + 1` of them is not reserved and the Python
loop stops within that many steps. -/
def freshPrimedAux : Nat → String → List (Option String) → String
  | 0, cur, _ => cur
  | n + 1, cur, reserved =>
    if (some cur) ∈ reserved then freshPrimedAux n (cur ++ "'") reserved else cur

/-- Starting candidate `hole_name + "'"`, then primes until unused. -/
def freshPrimed (base : String) (reserved : List (Option String)) : String :=
  freshPrimedAux (reserved.length + 1) (base ++ "'") reserved

/-- The rename-map construction loop of `compose_rews`
(src/src/core/operations.py lines 124-134): for each hole name of `B`
already reserved (initially the hole names of `A`), pick a fresh primed
variant, record it in the rename map and reserve it.  A `None` hole name
that collides would make Python raise `TypeError` on `None + "'"`. -/
def renameLoop : List (Option String) → RMap → List (Option String) →
    EM (RMap × List (Option String))
  | [], rename_map, reserved => pure (rename_map, reserved)
  | hole_name :: rest, rename_map, reserved =>
    if hole_name ∈ reserved then
      match hole_name with
      | none => .error ("TypeError: unsupported operand type")
      | some s =>
        let new_name := freshPrimed s reserved
        renameLoop rest (PyDict.set rename_map (some s) new_name)
          (reserved ++ [some new_name])
    else renameLoop rest rename_map reserved

/-- The `compose_rews` function (src/src/core/operations.py lines
113-145): compose two rewritings under the same symbol.  Hole names of `B`
colliding with hole names of `A` are renamed to primed variants, `A.right`
is unified against the renamed `B.left`, and on success
`Rew(apply(A.left, θ), A.symbol, apply(B_renamed.right, θ))` is returned.
`none` models the Python `None` returns; exceptions propagate. -/
def compose_rews (A B : Object) : EM (Option Object) :=
  if A.ty ≠ "Rew" ∨ B.ty ≠ "Rew" ∨ A.symbol ≠ B.symbol then pure none
  else do
    let holes_A := get_hole_names A
    let holes_B := get_hole_names B
    let (rename_map, _) ← renameLoop holes_B [] holes_A
    let B_renamed := if rename_map ≠ [] then rename_holes B rename_map else B
    let Ar ← A.rightE
    let Bl ← B_renamed.leftE
    match match' Ar Bl [] with
    | some assignments => do
      let Al ← A.leftE
      let Br ← B_renamed.rightE
      pure (some (Object.mk ("Rew") A.handle
        [apply Al assignments, apply Br assignments]))
    | none => pure none

/-- The `compose` function (src/src/core/operations.py lines 147-159):
try `compose_rews`; on `None`, retry with `A` lifted to the identity
rewriting `identify(A, B.symbol)` and project `.right` of the result. -/
def compose (A B : Object) : EM (Option Object) := do
  let attempt ← compose_rews A B
  match attempt with
  | some x => pure (some x)
  | none => do
    let attempt_identified ← compose_rews (identify A B.symbol) B
    match attempt_identified with
    | some y => do
      let r ← y.rightE
      pure (some r)
    | none => pure none

mutual
/-- Display form of an object (`Object.__repr__`,
src/src/core/objects.py lines 24-30 and the `repr_func` closures installed
by the `Term`/`Rew`/`Comp`/`Hole` constructors).  Every operation in the
source copies `repr_func` together with `type`, so the display of every
object reachable from the four constructors is determined by its type tag;
the model dispatches on the tag.  Objects never produced by the
constructors (for example a `Rew` tag without two children, or a handle of
`None` outside `Comp`) fall back to the default shape with an empty
handle. -/
def reprObj : Object → String
  | .mk ty hd cs =>
    match ty, cs with
    | "Rew", [l, r] => "(" ++ reprObj l ++ " " ++ hd.getD "" ++ " " ++ reprObj r ++ ")"
    | "Comp", [l, r] => "(" ++ reprObj l ++ " | " ++ reprObj r ++ ")"
    | "Hole", _ => "[" ++ hd.getD "" ++ "]"
    | _, [] => hd.getD ""
    | _, cs' => hd.getD "" ++ "(" ++ String.intercalate (", ") (reprList cs') ++ ")"
/-- Display forms of a list of objects. -/
def reprList : List Object → List String
  | [] => []
  | c :: cs => reprObj c :: reprList cs
end

mutual
/-- The `reduce_once` single parallel step (src/src/core/operations.py
lines 161-179): reduce all children first, then, if the rebuilt node is a
`Comp`, attempt one composition of its operands.  The source's
`result != term` comparison only decides which of two equal-by-`__eq__`
objects to keep, so it is invisible at this model's level of abstraction.
A `Comp`-tagged node without two children makes `.left` raise. -/
def reduce_once : Object → EM Object
  | .mk ty hd cs => do
    let new_children ← reduceOnceList cs
    let term := Object.mk ty hd new_children
    if term.ty = "Comp" then
      match term.children with
      | [l, r] => do
        let attempt ← compose l r
        match attempt with
        | some x => pure x
        | none => pure term
      | _ => .error ("AttributeError: Object does not have left attribute")
    else pure term
/-- Children traversal of `reduce_once`. -/
def reduceOnceList : List Object → EM (List Object)
  | [] => pure []
  | c :: cs => do
    let c' ← reduce_once c
    let cs' ← reduceOnceList cs
    pure (c' :: cs')
end

/-- The bounded fixpoint loop of `reduce` (src/src/core/operations.py
lines 181-192): at most `max_steps` iterations of `reduce_once`, stopping
at the first fixpoint; `ValueError` when the bound is exhausted. -/
def reduceLoop : Nat → Object → EM Object
  | 0, _ => .error ("Max number of steps reached, reduction not finished")
  | n + 1, current => do
    let reduced ← reduce_once current
    if reduced = current then pure current else reduceLoop n reduced

/-- The `reduce` function with its default `max_steps = 100`. -/
def reduce (term : Object) : EM Object := reduceLoop 100 term

/-- A buildability context: Python `Dict[str, List[Object]]`, modelled as a
map from key to a reference (index) into the `Store` heap of lists, so that
the list sharing produced by `dict(context)` shallow copies is visible. -/
abbrev Ctx := List (Option String × Nat)

/-- The heap of lists referenced by contexts. -/
abbrev Store := List (List Object)

/-- The `dict_add` helper (src/src/core/buildability.py lines 17-21): if
the key is absent, bind it to a fresh empty list; then append the value to
the list stored under the key.  Appending mutates the heap cell, which is
shared with every other dict holding the same reference. -/
def dict_add (d : Ctx) (σ : Store) (key : Option String) (value : Object) :
    Ctx × Store :=
  match PyDict.get? d key with
  | some ref => (d, σ.set ref ((σ.getD ref []) ++ [value]))
  | none => (d ++ [(key, σ.length)], σ ++ [[value]])

/-- The buildability checker `check` (src/src/core/buildability.py lines
23-39).  An object recorded under `rule` succeeds; a `Rew` node checks its
right child under its symbol in `dict_add(dict(context), symbol,
reduce(left))` — note that `dict(context)` shares its list references with
`context`, so the append performed by `dict_add` is visible to the caller
and to sibling recursive calls; a `Comp` node checks both children against
the same context left to right; anything else fails with a diagnostic. -/
def check : Object → Option String → Ctx → Store → EM ((Bool × String) × Store)
  | obj@(.mk ty hd cs), rule, context, σ =>
    if (match PyDict.get? context rule with
        | some ref => decide (obj ∈ σ.getD ref [])
        | none => false) = true then
      pure ((true, reprObj obj ++ " in context"), σ)
    else if ty = "Rew" then
      match cs with
      | [l, r] => do
        let lred ← reduce l
        let (context', σ') := dict_add context σ hd lred
        check r hd context' σ'
      | _ => .error ("AttributeError: Object does not have right attribute")
    else if ty = "Comp" then
      match cs with
      | [l, r] => do
        let ((res, mes), σ1) ← check l rule context σ
        if res = false then pure ((false, mes), σ1)
        else do
          let ((res2, mes2), σ2) ← check r rule context σ1
          if res2 = false then pure ((false, mes2), σ2)
          else pure ((true, ""), σ2)
      | _ => .error ("AttributeError: Object does not have left attribute")
    else pure ((false, reprObj obj ++ " is not buildable"), σ)

/-- Alias helper state (src/src/engine/helpers/alias.py): a sequence of
(name, object) pairs. -/
abbrev AliasState := List (String × Object)

/-- The `get_alias` lookup (alias.py lines 18-23): first match wins. -/
def get_alias (state : AliasState) (name : String) : Option Object :=
  match state with
  | [] => none
  | (k, v) :: rest => if k = name then some v else get_alias rest name

/-- The `with_alias` update (alias.py lines 26-28): drop existing bindings
of the name, then append the new binding. -/
def with_alias (state : AliasState) (name : String) (obj : Object) : AliasState :=
  (state.filter (fun p => !(p.1 == name))) ++ [(name, obj)]

/-- The `has_alias` test (alias.py lines 31-33). -/
def has_alias (state : AliasState) (name : String) : Bool :=
  state.any (fun p => p.1 == name)

/-- The `is_alphanumeric_name` test (alias.py lines 36-41): a zero-arity
`Term` whose name consists of alphanumerics, underscores and dots.  A
`Term`-tagged object with handle `None` would make Python iterate over
`None` and raise, hence the error case.  (`Char.isAlphanum` is the ASCII
approximation of Python's `str.isalnum`; the claims settled below use
plain ASCII names.) -/
def is_alphanumeric_nameE (obj : Object) : EM Bool :=
  if obj.ty ≠ "Term" ∨ obj.children ≠ [] then pure false
  else match obj.handle with
    | none => .error ("TypeError: argument of type NoneType is not iterable")
    | some h => pure (h.toList.all (fun c => c.isAlphanum || c == '_' || c == '.'))

/-- Per-helper snapshot stack (src/src/engine/helpers/helper.py lines
92-120): `_state` plus `_state_stack`.  The model stores the stack
top-first (the source appends at the end of a list); `HState.init`
corresponds to `__init__`, which pushes the initial state. -/
structure HState (S : Type) where
  state : S
  stack : List S
deriving DecidableEq

/-- Helper construction: `_state_stack = [initial_state]`. -/
def HState.init {S : Type} (s : S) : HState S := ⟨s, [s]⟩

/-- The `set_state` primitive: replace the state, pushing it on the
history stack (helper.py lines 109-112). -/
def set_state {S : Type} (h : HState S) (new : S) : HState S :=
  ⟨new, new :: h.stack⟩

/-- The `Helper.undo` primitive (helper.py lines 114-120): pop the last
state unless only the initial snapshot remains. -/
def helperUndo {S : Type} (h : HState S) : Bool × HState S :=
  match h.stack with
  | _ :: top :: rest => (true, ⟨top, top :: rest⟩)
  | _ => (false, h)

/-- Goal helper state (src/src/engine/helpers/utils/goal.py `GoalState`):
the partial proof term and the generic context seeded with `True` under
`=>`.  The generic context is a value here (the goal helper model below
only exercises the `Axiom` handler, which rebuilds it functionally). -/
structure GoalState where
  goal : Option Object
  generic_context : List (Option String × List Object)
deriving DecidableEq

/-- Initial goal state (utils/goal.py lines 18-21). -/
def GoalState.init : GoalState :=
  ⟨none, [(some ("=>"), [Term ("True") []])]⟩

/-- Modelled from the spec: goal.py imports a functional `add_axiom
(state, rule_symbol, term) -> new state` from utils/goal.py, which only
defines the mutating method `GoalState.add_axiom`; the functional wrapper
is missing from the repository.  Per the spec (§4.6 `Axiom`), it appends
`term` to the generic context bucket for the symbol, creating the bucket
if absent (matching the method's body). -/
def addAxiom (st : GoalState) (rule_symbol : Option String) (t : Object) :
    GoalState :=
  ⟨st.goal,
    PyDict.set st.generic_context rule_symbol
      ((PyDict.get? st.generic_context rule_symbol).getD [] ++ [t])⟩

/-- The `GoalHelper.handle_axiom` handler (src/src/engine/helpers/goal.py
lines 249-270): one argument appends under the default symbol `=>`; two
arguments take the symbol from the first argument's `.symbol` (its handle,
both for `Term`s and via the `getattr` fallback); any other arity fails.
The handler pushes a new state exactly on the success paths.  The result
objects only carry display `data`, which the model omits. -/
def handleAxiom (st : GoalState) (args : List Object) : Bool × GoalState :=
  match args with
  | [axTerm] => (true, addAxiom st (some ("=>")) axTerm)
  | [s, axTerm] => (true, addAxiom st s.symbol axTerm)
  | _ => (false, st)

/-- The `AliasHelper.axiom_forhook` (src/src/engine/helpers/alias.py lines
129-145): when at least two arguments arrive and the first is a simple
alphanumeric name, register an alias from that name to the last argument
(a `set_state` push on the alias helper's own stack) and drop the name
from the argument list; otherwise pass the arguments through unchanged. -/
def aliasAxiomForhook (h : HState AliasState) (args : List Object) :
    EM (HState AliasState × List Object) :=
  match args with
  | a0 :: _ :: _ => do
    let isName ← is_alphanumeric_nameE a0
    if isName then
      -- is_alphanumeric_name = True implies the handle is a string
      let name := a0.handle.getD ""
      let axTerm := (args.getLast?).getD a0
      pure (set_state h (with_alias h.state name axTerm), args.drop 1)
    else pure (h, args)
  | _ => pure (h, args)

/-- Identity of the two helpers modelled in the `Axiom` pipeline. -/
inductive HelperId where
  | aliasHelper
  | goalHelper
deriving DecidableEq

/-- A pipeline holding an alias helper and a goal helper (the two helpers
whose state the `Axiom` directive touches, in the engine's registration
order) together with the pipeline's own `(directive, helper)` stack
(src/src/engine/pipeline.py lines 33-36, stored top-first). -/
structure AxPipeline where
  aliasH : HState AliasState
  goalH : HState GoalState
  handler_stack : List (String × HelperId)
deriving DecidableEq

/-- Modelled from the spec: processing of an `Axiom` directive by
`Pipeline.process` (src/src/engine/pipeline.py lines 72-113).  The hook
phase is spec-modelled because `process` calls `helper.get_hooks`, a
method that exists nowhere in the repository (`Helper` defines
`get_hook`); per the spec (§4.9) each helper's applicable forhook runs in
registration order.  For `Axiom` that is exactly the alias helper's
directive-specific `axiom_forhook` (registered with no backhook, so the
`ALL` backhook is not collected), then the goal helper — the first with an
`Axiom` handler — handles it; the `(directive, helper)` pair is pushed
whenever a handler returned a result, even a failing one. -/
def processAxiom (p : AxPipeline) (args : List Object) : EM (Bool × AxPipeline) := do
  let (aliasH', args') ← aliasAxiomForhook p.aliasH args
  let (succ, goalState') := handleAxiom p.goalH.state args'
  let goalH' := if succ then set_state p.goalH goalState' else p.goalH
  pure (succ, ⟨aliasH', goalH', ("Axiom", HelperId.goalHelper) :: p.handler_stack⟩)

/-- The `Pipeline.undo` method (src/src/engine/pipeline.py lines 38-44):
pop the most recent `(directive, helper)` pair and undo that one helper's
state, regardless of which other helpers ran forhooks. -/
def pipelineUndo (p : AxPipeline) : (Bool × Option String) × AxPipeline :=
  match p.handler_stack with
  | [] => ((false, none), p)
  | (dir, hid) :: rest =>
    match hid with
    | .goalHelper => ((true, some dir), ⟨p.aliasH, (helperUndo p.goalH).2, rest⟩)
    | .aliasHelper => ((true, some dir), ⟨(helperUndo p.aliasH).2, p.goalH, rest⟩)

/-- The pipeline state reached by processing `Axiom n, t` from the
initial two-helper pipeline: the alias forhook has registered `n ↦ t` and
pushed on the alias stack, the goal handler has appended `t` to the `=>`
bucket and pushed on the goal stack, and the `(directive, helper)` pair
has been recorded. -/
def pipelineAfterDirective : AxPipeline :=
  ⟨⟨[("n", Term ("t") [])], [[("n", Term ("t") [])], []]⟩,
   ⟨⟨none, [(some ("=>"), [Term ("True") [], Term ("t") []])]⟩,
    [⟨none, [(some ("=>"), [Term ("True") [], Term ("t") []])]⟩, GoalState.init]⟩,
   [("Axiom", HelperId.goalHelper)]⟩

/-- Functorial lookup key `(inner_rew, term_symbol, position)`
(src/src/engine/helpers/utils/functorial.py).  The symbols looked up by
`wrap_rule` come from `.symbol` handles, hence `Option String`. -/
abbrev FunctorialKey := Option String × Option String × Int

/-- Functorial value `(outer_rew, rule)`. -/
abbrev FunctorialValue := Option String × Object

/-- Functorial state: a sequence of key/value pairs. -/
abbrev FunctorialState := List (FunctorialKey × FunctorialValue)

/-- The `get_functorial` lookup (utils/functorial.py lines 19-26). -/
def get_functorial (state : FunctorialState) (inner_rew term_symbol : Option String)
    (position : Int) : Option FunctorialValue :=
  match state with
  | [] => none
  | (k, v) :: rest =>
    if k = (inner_rew, term_symbol, position) then some v
    else get_functorial rest inner_rew term_symbol position

/-- The path-building loop of `FunctorialHelper.wrap_rule`
(src/src/engine/helpers/functorial.py lines 121-134): walk the working
term along the positions, recording `(handle, position)` at each step and
raising `ValueError` on an out-of-bounds index. -/
def buildPath (working_term : Object) : List Int → EM (List (Option String × Int))
  | [] => pure []
  | pos :: rest =>
    if h : pos < 0 ∨ (working_term.children.length : Int) ≤ pos then
      .error ("Position " ++ toString pos ++ " out of bounds for term " ++
        (working_term.handle.getD "None"))
    else do
      let tail ← buildPath
        (working_term.children.get ⟨pos.toNat, by push_neg at h; omega⟩) rest
      pure ((working_term.handle, pos) :: tail)

/-- The wrapping loop of `wrap_rule` (functorial.py lines 136-159): walk
the reversed path, looking up a functorial rule for the current inner
symbol at each step, composing and reducing, and propagating the outer
symbol. -/
def wrapLoop (state : FunctorialState) :
    List (Option String × Int) → Object → Option String → EM Object
  | [], wrapped, _ => pure wrapped
  | (term_symbol, position) :: rest, wrapped, inner =>
    match get_functorial state inner term_symbol position with
    | none =>
      .error ("No functorial rule for (" ++ inner.getD "None" ++ ", " ++
        term_symbol.getD "None" ++ ", " ++ toString position ++ ")")
    | some (outer, functorial) => do
      let w ← reduce (Comp wrapped functorial)
      wrapLoop state rest w outer

/-- The `FunctorialHelper.wrap_rule` method (functorial.py lines 101-161).
Its two explicit inputs besides `rule` and `positions` are the functorial
state and the build helper's current working term (read through the
cross-helper reference); a missing working term or a non-`Rew` rule raise
`ValueError` before any wrapping happens. -/
def wrap_rule (state : FunctorialState) (working_term : Option Object)
    (rule : Object) (positions : List Int) : EM Object :=
  match working_term with
  | none => .error ("No working term. Use 'Start' before 'Use' with positions.")
  | some wt =>
    if rule.ty ≠ "Rew" then .error ("Can only wrap rewriting rules")
    else do
      let path ← buildPath wt positions
      wrapLoop state path.reverse rule rule.symbol

/-- Specification-side descent relation for `get_child` (the claim's
words): `d` is the descendant of `obj` reached by following the index
sequence, each index being within the bounds of the current node's
children. -/
inductive Descends : Object → List Int → Object → Prop where
  | nil (obj : Object) : Descends obj [] obj
  | cons (obj : Object) (i : Int) (rest : List Int) (c d : Object) :
      0 ≤ i → obj.children.get? i.toNat = some c → Descends c rest d →
      Descends obj (i :: rest) d

/-! ## General lemmas -/

/-- Membership-based induction principle for `Object`: to prove a property
of every object it suffices to prove it for a node whose children all
satisfy it. -/
theorem Object.memInduction (motive : Object → Prop)
    (h : ∀ ty hd cs, (∀ c ∈ cs, motive c) → motive (.mk ty hd cs)) :
    ∀ t, motive t := by
  intro t
  refine @Object.rec motive (fun cs => ∀ c ∈ cs, motive c) ?_ ?_ ?_ t
  · intro ty hd cs ih
    exact h ty hd cs ih
  · intro c hc
    simp at hc
  · intro c cs hc ih d hd
    rcases List.mem_cons.mp hd with h1 | h2
    · exact h1 ▸ hc
    · exact ih d h2

/-- A successful `PyDict.get?` lookup returns a binding of the list. -/
theorem PyDict.get?_mem {κ ν : Type} [DecidableEq κ] :
    ∀ (d : List (κ × ν)) (k : κ) (v : ν), PyDict.get? d k = some v → (k, v) ∈ d := by
  intro d k v
  induction d with
  | nil => intro h; simp [PyDict.get?] at h
  | cons p rest ih =>
    intro h
    rw [PyDict.get?] at h
    by_cases hp : p.1 = k
    · rw [if_pos hp] at h
      have hpkv : p = (k, v) := by
        cases p
        simp_all
      rw [← hpkv]
      exact List.mem_cons_self p rest
    · rw [if_neg hp] at h
      exact List.mem_cons_of_mem p (ih h)

/-- Every binding of `PyDict.set d k v` is the new binding or one of `d`. -/
theorem PyDict.mem_set {κ ν : Type} [DecidableEq κ] :
    ∀ (d : List (κ × ν)) (k : κ) (v : ν) (p : κ × ν),
      p ∈ PyDict.set d k v → p = (k, v) ∨ p ∈ d := by
  intro d k v p
  induction d with
  | nil => intro h; simp [PyDict.set] at h; exact Or.inl h
  | cons q rest ih =>
    intro h
    rw [PyDict.set] at h
    by_cases hq : q.1 = k
    · rw [if_pos hq] at h
      rcases List.mem_cons.mp h with h1 | h2
      · exact Or.inl h1
      · exact Or.inr (List.mem_cons_of_mem q h2)
    · rw [if_neg hq] at h
      rcases List.mem_cons.mp h with h1 | h2
      · exact Or.inr (h1 ▸ List.mem_cons_self q rest)
      · rcases ih h2 with h3 | h3
        · exact Or.inl h3
        · exact Or.inr (List.mem_cons_of_mem q h3)

/-- Membership in the ordered union is membership in either operand. -/
theorem mem_setUnion {α : Type} [DecidableEq α] (s t : List α) (x : α) :
    x ∈ setUnion s t ↔ x ∈ s ∨ x ∈ t := by
  simp [setUnion, List.mem_append, List.mem_filter]
  tauto

/-- Membership in the hole names of a list of objects. -/
theorem mem_ghnList : ∀ (cs : List Object) (h : Option String),
    h ∈ ghnList cs ↔ ∃ c ∈ cs, h ∈ get_hole_names c := by
  intro cs h
  induction cs with
  | nil => simp [ghnList]
  | cons c rest ih => simp [ghnList, mem_setUnion, ih]

/-- `applyList` is the elementwise substitution. -/
theorem applyList_eq_map : ∀ (cs : List Object) (σ : AMap),
    applyList cs σ = cs.map (fun c => apply c σ) := by
  intro cs σ
  induction cs with
  | nil => rfl
  | cons c rest ih => simp [applyList, ih]

/-! ## C10: `get_child` totality and correctness -/

/-- C10: `get_child` is total (it is a plain Lean function, returning
`Option`), and it returns `some d` exactly when `d` is the descendant
reached by following the indices with every index in bounds; in
particular it returns `none` — rather than raising — as soon as an index
is negative or out of bounds. -/
theorem get_child_iff_descends :
    ∀ (idxs : List Int) (obj d : Object),
      get_child obj idxs = some d ↔ Descends obj idxs d := by
  intro idxs
  induction idxs with
  | nil =>
    intro obj d
    constructor
    · intro h
      rw [get_child] at h
      cases h
      exact Descends.nil obj
    · intro h
      cases h
      rfl
  | cons i rest ih =>
    intro obj d
    constructor
    · intro h
      rw [get_child] at h
      split at h
      · cases h
      · rename_i hb
        push_neg at hb
        refine Descends.cons obj i rest _ d hb.1 ?_ ((ih _ d).mp h)
        exact (List.get?_eq_get _).symm ▸ rfl
    · intro h
      cases h with
      | cons _ _ _ c _ hnn hget hdesc =>
        rw [get_child]
        rcases List.get?_eq_some.mp hget with ⟨hlt, hc⟩
        rw [dif_neg (by push_neg; omega)]
        have : obj.children.get ⟨i.toNat, by omega⟩ = c := hc
        rw [this]
        exact (ih c d).mpr hdesc

/-! ## C8: `reduce` is idempotent at its fixpoint -/

/-- When the bounded loop returns a value, that value is a `reduce_once`
fixpoint. -/
theorem reduceLoop_fixpoint : ∀ (n : Nat) (t r : Object),
    reduceLoop n t = .ok r → reduce_once r = .ok r := by
  intro n
  induction n with
  | zero => intro t r h; simp [reduceLoop] at h
  | succ n ih =>
    intro t r h
    rw [reduceLoop] at h
    cases hro : reduce_once t with
    | error e => rw [hro] at h; simp [Bind.bind, Except.bind] at h
    | ok red =>
      rw [hro] at h
      simp only [Bind.bind, Except.bind] at h
      by_cases he : red = t
      · rw [if_pos he] at h
        have ht : t = r := by simpa [Pure.pure, Except.pure] using h
        subst ht
        rw [he] at hro
        exact hro
      · rw [if_neg he] at h
        exact ih red r h

/-- C8: if `reduce(t)` returns a value `r` (without raising), then
`reduce(r) = r`: the loop stops at a `reduce_once` fixpoint, and running
`reduce` on a fixpoint stops at the first iteration. -/
theorem reduce_idempotent (t r : Object) (h : reduce t = .ok r) :
    reduce r = .ok r := by
  have hf := reduceLoop_fixpoint 100 t r h
  show reduceLoop 100 r = .ok r
  have hstep : reduceLoop 100 r = (do
      let reduced ← reduce_once r
      if reduced = r then pure r else reduceLoop 99 reduced) := rfl
  rw [hstep, hf]
  simp [Bind.bind, Except.bind, Pure.pure, Except.pure]

/-- C8 witness: `Term("a")` reduces to itself, and the theorem applies. -/
theorem reduce_idempotent_witness : reduce (Term ("a") []) = .ok (Term ("a") []) :=
  reduce_idempotent (Term ("a") []) (Term ("a") []) (by decide)

/-! ## C1: duplicate hole names in `match_left` -/

/-- C1: the source of `match_left` re-creates its `assignments` dict at
every recursive call and merges child results with `dict.update`, so a
repeated hole name is never checked for consistency: matching
`f(a, b)` against the pattern `f([x], [x])` succeeds with the *last*
assignment `x := b`, although the two occurrences matched the distinct
values `a` and `b` — the claim says this match must fail. -/
theorem match_left_duplicate_hole_eval :
    match_left (Term ("f") [Term ("a") [], Term ("b") []])
        (Term ("f") [Hole ("x"), Hole ("x")])
      = some [(some ("x"), Term ("b") [])]
    ∧ Term ("a") [] ≠ Term ("b") [] := by decide

/-! ## C9: `wrap_rule` with the empty position path -/

/-- C9 counterexample: with no working term, `wrap_rule(rule, [])` raises
`ValueError` instead of returning the rule, so the empty path is not
unconditionally the identity. -/
theorem wrap_rule_empty_path_cex :
    wrap_rule [] none (Rew (Hole ("x")) ("s") (Hole ("x"))) []
      = .error ("No working term. Use 'Start' before 'Use' with positions.") := by
  decide

/-- C9 (amended): for a `Rew` rule and in the presence of a working term,
`wrap_rule(rule, [])` returns the rule unchanged — the empty path builds
the empty wrapping chain. -/
theorem wrap_rule_empty_path (st : FunctorialState) (wt rule : Object)
    (hrew : rule.ty = "Rew") :
    wrap_rule st (some wt) rule [] = .ok rule := by
  rw [wrap_rule]
  rw [if_neg (by simp [hrew])]
  simp [buildPath, wrapLoop, Bind.bind, Except.bind, Pure.pure, Except.pure]

/-- C9 witness: a concrete `Rew` rule with a concrete working term. -/
theorem wrap_rule_empty_path_witness :
    wrap_rule [] (some (Term ("w") [])) (Rew (Hole ("x")) ("s") (Hole ("x"))) []
      = .ok (Rew (Hole ("x")) ("s") (Hole ("x"))) :=
  wrap_rule_empty_path [] (Term ("w") []) (Rew (Hole ("x")) ("s") (Hole ("x")))
    (by decide)

/-! ## C6: idempotence of substitution -/

/-- C6 counterexample: with the cyclic map `θ = {x ↦ [x]}`, the term
`apply(apply([x], θ), θ)` still contains the hole `x`, which is a key of
`θ` — the claim fails for arbitrary assignment maps. -/
theorem substitution_idempotent_cex :
    some ("x") ∈ get_hole_names
      (apply (apply (Hole ("x")) [(some ("x"), Hole ("x"))])
        [(some ("x"), Hole ("x"))])
    ∧ PyDict.contains [(some ("x"), Hole ("x"))] (some ("x")) = true := by decide

/-- One `apply` pass leaves no hole bound in the map, provided no value of
the map itself contains a bound hole. -/
theorem apply_no_bound_holes (σ : AMap)
    (hval : ∀ p ∈ σ, ∀ h ∈ get_hole_names p.2, PyDict.contains σ h = false) :
    ∀ t, ∀ h ∈ get_hole_names (apply t σ), PyDict.contains σ h = false := by
  intro t
  refine Object.memInduction
    (fun t => ∀ h ∈ get_hole_names (apply t σ), PyDict.contains σ h = false) ?_ t
  intro ty hd cs ih hh hmem
  by_cases hty : ty = "Hole"
  · rw [apply] at hmem
    rw [if_pos hty] at hmem
    cases hget : PyDict.get? σ hd with
    | some v =>
      rw [hget] at hmem
      exact hval (hd, v) (PyDict.get?_mem σ hd v hget) hh hmem
    | none =>
      rw [hget] at hmem
      rw [get_hole_names, if_pos hty] at hmem
      simp at hmem
      rw [hmem, PyDict.contains, hget]
      rfl
  · rw [apply] at hmem
    rw [if_neg hty] at hmem
    rw [get_hole_names, if_neg hty] at hmem
    rw [applyList_eq_map] at hmem
    rcases (mem_ghnList _ hh).mp hmem with ⟨c', hc', hmem'⟩
    rcases List.mem_map.mp hc' with ⟨c, hc, rfl⟩
    exact ih c hc hh hmem'

/-- C6 (amended): if no value of `θ` contains a hole bound in `θ` (in
particular rules out the cyclic counterexample), then `apply(apply(t, θ),
θ)` contains no hole whose name is a key of `θ`. -/
theorem substitution_idempotent_amended (σ : AMap) (t : Object)
    (hval : ∀ p ∈ σ, ∀ h ∈ get_hole_names p.2, PyDict.contains σ h = false) :
    ∀ h ∈ get_hole_names (apply (apply t σ) σ), PyDict.contains σ h = false :=
  apply_no_bound_holes σ hval (apply t σ)

/-- C6 witness: a concrete acyclic map and term. -/
theorem substitution_idempotent_amended_witness :
    PyDict.contains [(some ("x"), Term ("a") [])] (some ("y")) = false :=
  substitution_idempotent_amended [(some ("x"), Term ("a") [])] (Hole ("y"))
    (by decide) (some ("y")) (by decide)

/-! ## C5: hole names of `compose_rews` results -/

/-- `renameList` is the elementwise renaming. -/
theorem renameList_eq_map : ∀ (cs : List Object) (m : RMap),
    renameList cs m = cs.map (fun c => rename_holes c m) := by
  intro cs m
  induction cs with
  | nil => rfl
  | cons c rest ih => simp [renameList, ih]

/-- Hole names of a substituted term come from the term or from the values
of the assignment map. -/
theorem apply_hole_names (σ : AMap) : ∀ t, ∀ h ∈ get_hole_names (apply t σ),
    h ∈ get_hole_names t ∨ ∃ p ∈ σ, h ∈ get_hole_names p.2 := by
  intro t
  refine Object.memInduction
    (fun t => ∀ h ∈ get_hole_names (apply t σ),
      h ∈ get_hole_names t ∨ ∃ p ∈ σ, h ∈ get_hole_names p.2) ?_ t
  intro ty hd cs ih hh hmem
  by_cases hty : ty = "Hole"
  · rw [apply, if_pos hty] at hmem
    cases hget : PyDict.get? σ hd with
    | some v =>
      rw [hget] at hmem
      exact Or.inr ⟨(hd, v), PyDict.get?_mem σ hd v hget, hmem⟩
    | none =>
      rw [hget] at hmem
      exact Or.inl hmem
  · rw [apply, if_neg hty] at hmem
    rw [get_hole_names, if_neg hty] at hmem ⊢
    rw [applyList_eq_map] at hmem
    rcases (mem_ghnList _ hh).mp hmem with ⟨c', hc', hmem'⟩
    rcases List.mem_map.mp hc' with ⟨c, hc, rfl⟩
    rcases ih c hc hh hmem' with h1 | h1
    · exact Or.inl ((mem_ghnList cs hh).mpr ⟨c, hc, h1⟩)
    · exact Or.inr h1

/-- Hole names of a renamed term: either an original name, or the image of
a rename-map entry whose key occurs in the term. -/
theorem rename_holes_names : ∀ (t : Object) (m : RMap),
    ∀ h ∈ get_hole_names (rename_holes t m),
      h ∈ get_hole_names t ∨ ∃ p ∈ m, p.1 ∈ get_hole_names t ∧ h = some p.2 := by
  intro t
  refine Object.memInduction
    (fun t => ∀ (m : RMap), ∀ h ∈ get_hole_names (rename_holes t m),
      h ∈ get_hole_names t ∨ ∃ p ∈ m, p.1 ∈ get_hole_names t ∧ h = some p.2) ?_ t
  intro ty hd cs ih m hh hmem
  by_cases hty : ty = "Hole"
  · rw [rename_holes, if_pos hty] at hmem
    cases hget : PyDict.get? m hd with
    | some n =>
      rw [hget] at hmem
      by_cases hne : (some n : Option String) ≠ hd
      · rw [if_pos hne] at hmem
        simp [get_hole_names] at hmem
        refine Or.inr ⟨(hd, n), PyDict.get?_mem m hd n hget, ?_, by rw [hmem]⟩
        rw [get_hole_names, if_pos hty]
        exact List.mem_singleton_self hd
      · rw [if_neg hne] at hmem
        exact Or.inl hmem
    | none =>
      rw [hget] at hmem
      rw [if_neg (by simp)] at hmem
      exact Or.inl hmem
  · rw [rename_holes, if_neg hty] at hmem
    rw [get_hole_names, if_neg hty] at hmem ⊢
    rw [renameList_eq_map] at hmem
    rcases (mem_ghnList _ hh).mp hmem with ⟨c', hc', hmem'⟩
    rcases List.mem_map.mp hc' with ⟨c, hc, rfl⟩
    rcases ih c hc m hh hmem' with h1 | ⟨p, hp, hkey, hval⟩
    · exact Or.inl ((mem_ghnList cs hh).mpr ⟨c, hc, h1⟩)
    · exact Or.inr ⟨p, hp, (mem_ghnList cs p.1).mpr ⟨c, hc, hkey⟩, hval⟩

/-- Every name produced by the fresh-name search is the start name plus
some primes. -/
theorem freshPrimedAux_shape : ∀ (n : Nat) (cur : String) (res : List (Option String)),
    ∃ j : Nat, freshPrimedAux n cur res = cur ++ primes j := by
  intro n
  induction n with
  | zero =>
    intro cur res
    exact ⟨0, by rw [freshPrimedAux, primes, String.append_empty]⟩
  | succ n ih =>
    intro cur res
    rw [freshPrimedAux]
    by_cases hmem : (some cur) ∈ res
    · rw [if_pos hmem]
      rcases ih (cur ++ "'") res with ⟨j, hj⟩
      refine ⟨j + 1, ?_⟩
      rw [hj, String.append_assoc]
      rfl
    · rw [if_neg hmem]
      exact ⟨0, by rw [primes, String.append_empty]⟩

/-- `freshPrimed` appends at least one prime to its base name. -/
theorem freshPrimed_shape (base : String) (res : List (Option String)) :
    ∃ j : Nat, freshPrimed base res = base ++ primes (j + 1) := by
  rcases freshPrimedAux_shape (res.length + 1) (base ++ "'") res with ⟨j, hj⟩
  refine ⟨j, ?_⟩
  rw [freshPrimed, hj, String.append_assoc]
  rfl

/-- Every entry of the rename map built by `renameLoop` maps a hole name
of the input list to that name extended by one or more primes. -/
theorem renameLoop_entries :
    ∀ (hs : List (Option String)) (m0 : RMap) (res : List (Option String))
      (m' : RMap) (res' : List (Option String)),
      renameLoop hs m0 res = .ok (m', res') →
      ∀ p ∈ m', p ∈ m0 ∨
        (p.1 ∈ hs ∧ ∃ s j, p.1 = some s ∧ p.2 = s ++ primes (j + 1)) := by
  intro hs
  induction hs with
  | nil =>
    intro m0 res m' res' h p hp
    simp only [renameLoop] at h
    injection h with h
    injection h with h1 h2
    exact Or.inl (h1 ▸ hp)
  | cons hn rest ih =>
    intro m0 res m' res' h p hp
    simp only [renameLoop] at h
    by_cases hmem : hn ∈ res
    · rw [if_pos hmem] at h
      cases hn with
      | none => simp at h
      | some s =>
        rcases ih _ _ _ _ h p hp with hin | ⟨hkey, hshape⟩
        · rcases PyDict.mem_set _ _ _ p hin with hpk | hp0
          · refine Or.inr ⟨?_, ?_⟩
            · rw [hpk]; exact List.mem_cons_self _ _
            · rcases freshPrimed_shape s res with ⟨j, hj⟩
              exact ⟨s, j, by rw [hpk], by rw [hpk, hj]⟩
          · exact Or.inl hp0
        · exact Or.inr ⟨List.mem_cons_of_mem _ hkey, hshape⟩
    · rw [if_neg hmem] at h
      rcases ih _ _ _ _ h p hp with hin | ⟨hkey, hshape⟩
      · exact Or.inl hin
      · exact Or.inr ⟨List.mem_cons_of_mem _ hkey, hshape⟩

/-- List version of `match_values`: every binding produced by the `zip`
loop was already present or has its value's hole names among the operand
lists' hole names. -/
theorem matchList_values (as : List Object)
    (H : ∀ a ∈ as, ∀ (B : Object) (σ σ' : AMap), match' a B σ = some σ' →
      ∀ p ∈ σ', p ∈ σ ∨ (∀ h ∈ get_hole_names p.2,
        h ∈ get_hole_names a ∨ h ∈ get_hole_names B)) :
    ∀ (bs : List Object) (σ σ' : AMap), matchList as bs σ = some σ' →
      ∀ p ∈ σ', p ∈ σ ∨ (∀ h ∈ get_hole_names p.2,
        h ∈ ghnList as ∨ h ∈ ghnList bs) := by
  induction as with
  | nil =>
    intro bs σ σ' hm p hp
    have he : matchList [] bs σ = some σ := by cases bs <;> rfl
    rw [he] at hm
    injection hm with hm
    exact Or.inl (hm ▸ hp)
  | cons a rest ih =>
    intro bs σ σ' hm p hp
    cases bs with
    | nil =>
      have he : matchList (a :: rest) [] σ = some σ := rfl
      rw [he] at hm
      injection hm with hm
      exact Or.inl (hm ▸ hp)
    | cons b bs' =>
      rw [matchList] at hm
      cases hma : match' a b σ with
      | none => rw [hma] at hm; simp at hm
      | some σ1 =>
        rw [hma] at hm
        have hrec := ih (fun x hx => H x (List.mem_cons_of_mem a hx)) bs' σ1 σ' hm p hp
        rcases hrec with hσ1 | hsub
        · rcases H a (List.mem_cons_self a rest) b σ σ1 hma p hσ1 with hσ | hsub'
          · exact Or.inl hσ
          · refine Or.inr fun h hh => ?_
            rcases hsub' h hh with h1 | h1
            · exact Or.inl (by rw [ghnList]; exact (mem_setUnion _ _ h).mpr (Or.inl h1))
            · exact Or.inr (by rw [ghnList]; exact (mem_setUnion _ _ h).mpr (Or.inl h1))
        · refine Or.inr fun h hh => ?_
          rcases hsub h hh with h1 | h1
          · exact Or.inl (by rw [ghnList]; exact (mem_setUnion _ _ h).mpr (Or.inr h1))
          · exact Or.inr (by rw [ghnList]; exact (mem_setUnion _ _ h).mpr (Or.inr h1))

/-- Every binding produced by the unifier was already present in the input
assignments, or its value's hole names occur in one of the two operands. -/
theorem match_values : ∀ (A B : Object) (σ σ' : AMap), match' A B σ = some σ' →
    ∀ p ∈ σ', p ∈ σ ∨ (∀ h ∈ get_hole_names p.2,
      h ∈ get_hole_names A ∨ h ∈ get_hole_names B) := by
  intro A
  refine Object.memInduction
    (fun A => ∀ (B : Object) (σ σ' : AMap), match' A B σ = some σ' →
      ∀ p ∈ σ', p ∈ σ ∨ (∀ h ∈ get_hole_names p.2,
        h ∈ get_hole_names A ∨ h ∈ get_hole_names B)) ?_ A
  intro aty ah acs ihA B σ σ' hm p hp
  cases B with
  | mk bty bh bcs =>
    rw [match'] at hm
    by_cases hbty : bty = "Hole"
    · rw [if_pos hbty] at hm
      split at hm
      · rename_i v hget
        by_cases hv : v = Object.mk aty ah acs
        · rw [if_pos hv] at hm
          injection hm with hm
          exact Or.inl (hm ▸ hp)
        · rw [if_neg hv] at hm
          cases hm
      · injection hm with hm
        rcases PyDict.mem_set σ bh _ p (hm ▸ hp) with hpk | hpσ
        · refine Or.inr fun h hh => Or.inl ?_
          rw [hpk] at hh
          exact hh
        · exact Or.inl hpσ
    · rw [if_neg hbty] at hm
      by_cases haty : aty = "Hole"
      · rw [if_pos haty] at hm
        split at hm
        · rename_i v hget
          by_cases hv : v = Object.mk bty bh bcs
          · rw [if_pos hv] at hm
            injection hm with hm
            exact Or.inl (hm ▸ hp)
          · rw [if_neg hv] at hm
            cases hm
        · injection hm with hm
          rcases PyDict.mem_set σ ah _ p (hm ▸ hp) with hpk | hpσ
          · refine Or.inr fun h hh => Or.inr ?_
            rw [hpk] at hh
            exact hh
          · exact Or.inl hpσ
      · rw [if_neg haty] at hm
        by_cases htys : aty ≠ bty
        · rw [if_pos htys] at hm
          cases hm
        · rw [if_neg htys] at hm
          by_cases hhl : ah ≠ bh ∨ acs.length ≠ bcs.length
          · rw [if_pos hhl] at hm
            cases hm
          · rw [if_neg hhl] at hm
            rcases matchList_values acs (fun a ha => ihA a ha) bcs σ σ' hm p hp
              with h1 | h1
            · exact Or.inl h1
            · refine Or.inr fun h hh => ?_
              rcases h1 h hh with h2 | h2
              · exact Or.inl (by rw [get_hole_names, if_neg haty]; exact h2)
              · exact Or.inr (by rw [get_hole_names, if_neg hbty]; exact h2)

/-- Hole names of the `.left` child are hole names of the (non-hole)
parent. -/
theorem leftE_names : ∀ (A l : Object), A.leftE = .ok l → A.ty ≠ "Hole" →
    ∀ x ∈ get_hole_names l, x ∈ get_hole_names A := by
  intro A l hE hty x hx
  cases A with
  | mk ty hd cs =>
    match cs with
    | [] => simp [Object.leftE] at hE
    | [_] => simp [Object.leftE] at hE
    | [c1, c2] =>
      have hc : c1 = l := by
        simpa [Object.leftE, Pure.pure, Except.pure] using hE
      rw [get_hole_names, if_neg (by simpa [Object.ty] using hty)]
      rw [ghnList]
      exact (mem_setUnion _ _ x).mpr (Or.inl (hc ▸ hx))
    | _ :: _ :: _ :: _ => simp [Object.leftE] at hE

/-- Hole names of the `.right` child are hole names of the (non-hole)
parent. -/
theorem rightE_names : ∀ (A r : Object), A.rightE = .ok r → A.ty ≠ "Hole" →
    ∀ x ∈ get_hole_names r, x ∈ get_hole_names A := by
  intro A r hE hty x hx
  cases A with
  | mk ty hd cs =>
    match cs with
    | [] => simp [Object.rightE] at hE
    | [_] => simp [Object.rightE] at hE
    | [c1, c2] =>
      have hc : c2 = r := by
        simpa [Object.rightE, Pure.pure, Except.pure] using hE
      rw [get_hole_names, if_neg (by simpa [Object.ty] using hty)]
      rw [ghnList, ghnList]
      refine (mem_setUnion _ _ x).mpr (Or.inr ?_)
      exact (mem_setUnion _ _ x).mpr (Or.inl (hc ▸ hx))
    | _ :: _ :: _ :: _ => simp [Object.rightE] at hE

/-- Renaming holes preserves the type tag of a non-hole node. -/
theorem rename_holes_ty (t : Object) (m : RMap) (hty : t.ty ≠ "Hole") :
    (rename_holes t m).ty = t.ty := by
  cases t with
  | mk ty hd cs =>
    rw [rename_holes, if_neg (by simpa [Object.ty] using hty)]
    rfl

/-- C5 counterexample: composing `Rew([x], s, c)` with `Rew(c, s, [x])`
renames `B`'s hole `x` to `x'` to avoid capture and returns
`Rew([x], s, [x'])` — the prime is *not* removed, so the result contains
the hole name `x'`, which occurs in neither operand as originally
given. -/
theorem compose_rews_unprefix_cex :
    compose_rews (Rew (Hole ("x")) ("s") (Term ("c") []))
        (Rew (Term ("c") []) ("s") (Hole ("x")))
      = .ok (some (Object.mk ("Rew") (some ("s")) [Hole ("x"), Hole ("x'")]))
    ∧ some ("x'") ∈ get_hole_names
        (Object.mk ("Rew") (some ("s")) [Hole ("x"), Hole ("x'")])
    ∧ some ("x'") ∉ get_hole_names (Rew (Hole ("x")) ("s") (Term ("c") []))
    ∧ some ("x'") ∉ get_hole_names (Rew (Term ("c") []) ("s") (Hole ("x"))) := by
  decide

/-- C5 (amended): every hole name of a successful `compose_rews(A, B)`
result occurs in `A`, or occurs in `B`, or is a hole name of `B` with one
or more primes appended by the capture-avoiding renaming — which is not
undone before the result is returned. -/
theorem compose_rews_hole_names (A B C : Object)
    (h : compose_rews A B = .ok (some C)) :
    ∀ x ∈ get_hole_names C,
      x ∈ get_hole_names A ∨ x ∈ get_hole_names B ∨
        ∃ s j, some s ∈ get_hole_names B ∧ x = some (s ++ primes (j + 1)) := by
  rw [compose_rews] at h
  by_cases hguard : A.ty ≠ "Rew" ∨ B.ty ≠ "Rew" ∨ A.symbol ≠ B.symbol
  · rw [if_pos hguard] at h
    simp [Pure.pure, Except.pure] at h
  · rw [if_neg hguard] at h
    push_neg at hguard
    obtain ⟨hA, hB, hsym⟩ := hguard
    have hAnh : A.ty ≠ "Hole" := by rw [hA]; simp
    dsimp only at h
    cases hrl : renameLoop (get_hole_names B) [] (get_hole_names A) with
    | error e => rw [hrl] at h; simp [Bind.bind, Except.bind] at h
    | ok mr =>
      obtain ⟨m, res⟩ := mr
      rw [hrl] at h
      simp only [Bind.bind, Except.bind] at h
      have hBrenty : (if m ≠ [] then rename_holes B m else B).ty ≠ "Hole" := by
        by_cases hm0 : m = []
        · rw [if_neg (by simp [hm0])]
          rw [hB]
          simp
        · rw [if_pos (by simp [hm0])]
          rw [rename_holes_ty B m (by rw [hB]; simp), hB]
          simp
      have hliftB : ∀ x, x ∈ get_hole_names (if m ≠ [] then rename_holes B m else B) →
          x ∈ get_hole_names B ∨
            ∃ s j, some s ∈ get_hole_names B ∧ x = some (s ++ primes (j + 1)) := by
        intro x hx
        by_cases hm0 : m = []
        · rw [if_neg (by simp [hm0])] at hx
          exact Or.inl hx
        · rw [if_pos (by simp [hm0])] at hx
          rcases rename_holes_names B m x hx with h1 | ⟨q, hq, hqk, hqv⟩
          · exact Or.inl h1
          · rcases renameLoop_entries _ _ _ _ _ hrl q hq with h0 | ⟨hkey, s, j, hs1, hs2⟩
            · simp at h0
            · refine Or.inr ⟨s, j, ?_, by rw [hqv, hs2]⟩
              rw [← hs1]
              exact hkey
      cases hAr : A.rightE with
      | error e => rw [hAr] at h; simp [Except.bind] at h
      | ok Ar =>
        rw [hAr] at h
        simp only [Except.bind] at h
        cases hBl : (if m ≠ [] then rename_holes B m else B).leftE with
        | error e => rw [hBl] at h; simp [Except.bind] at h
        | ok Bl =>
          rw [hBl] at h
          simp only [Except.bind] at h
          cases hmm : match' Ar Bl [] with
          | none => rw [hmm] at h; simp [Pure.pure, Except.pure] at h
          | some θ =>
            rw [hmm] at h
            cases hAl : A.leftE with
            | error e => rw [hAl] at h; simp [Except.bind] at h
            | ok Al =>
              rw [hAl] at h
              simp only [Except.bind] at h
              cases hBr : (if m ≠ [] then rename_holes B m else B).rightE with
              | error e => rw [hBr] at h; simp [Except.bind] at h
              | ok Br =>
                rw [hBr] at h
                simp only [Except.bind, Pure.pure, Except.pure] at h
                injection h with h
                injection h with h
                intro x hx
                rw [← h] at hx
                rw [get_hole_names, if_neg (by simp)] at hx
                rcases (mem_ghnList _ x).mp hx with ⟨c', hc', hx'⟩
                have hvals : ∀ q ∈ θ, ∀ y ∈ get_hole_names q.2,
                    y ∈ get_hole_names A ∨ y ∈ get_hole_names B ∨
                      ∃ s j, some s ∈ get_hole_names B ∧
                        y = some (s ++ primes (j + 1)) := by
                  intro q hq y hy
                  rcases match_values Ar Bl [] θ hmm q hq with h0 | hsub
                  · simp at h0
                  · rcases hsub y hy with h2 | h2
                    · exact Or.inl (rightE_names A Ar hAr hAnh y h2)
                    · rcases hliftB y (leftE_names _ Bl hBl hBrenty y h2) with hb | hb
                      · exact Or.inr (Or.inl hb)
                      · exact Or.inr (Or.inr hb)
                simp only [List.mem_cons, List.not_mem_nil, or_false] at hc'
                rcases hc' with rfl | rfl
                · rcases apply_hole_names θ Al x hx' with h1 | ⟨q, hq, hqn⟩
                  · exact Or.inl (leftE_names A Al hAl hAnh x h1)
                  · exact hvals q hq x hqn
                · rcases apply_hole_names θ Br x hx' with h1 | ⟨q, hq, hqn⟩
                  · rcases hliftB x (rightE_names _ Br hBr hBrenty x h1) with hb | hb
                    · exact Or.inr (Or.inl hb)
                    · exact Or.inr (Or.inr hb)
                  · exact hvals q hq x hqn

/-- C5 witness: the amended statement at the counterexample's operands,
for the surviving original hole name `x`. -/
theorem compose_rews_hole_names_witness :
    some ("x") ∈ get_hole_names (Rew (Hole ("x")) ("s") (Term ("c") [])) ∨
    some ("x") ∈ get_hole_names (Rew (Term ("c") []) ("s") (Hole ("x"))) ∨
    ∃ s j, some s ∈ get_hole_names (Rew (Term ("c") []) ("s") (Hole ("x")))
      ∧ some ("x") = some (s ++ primes (j + 1)) :=
  compose_rews_hole_names (Rew (Hole ("x")) ("s") (Term ("c") []))
    (Rew (Term ("c") []) ("s") (Hole ("x")))
    (Object.mk ("Rew") (some ("s")) [Hole ("x"), Hole ("x'")])
    (by decide) (some ("x")) (by decide)

/-! ## C4: `check` mutates the caller's context lists -/

/-- C4: `check` on `Rew(a, r, b)` with a caller context whose dict already
binds `"r"` to the list `[c]` returns normally — but the heap cell the
caller's `"r"` entry references has grown from `[c]` to `[c, a]`:
`dict_add(dict(context), ...)` copies only the key-to-list-reference map
and appends to the shared list, mutating the caller's context.  The claim
(and the spec, which the `dict(context)` copy shows to be the intent) says
the caller's lists are unchanged, so this is a defect in the code. -/
theorem check_mutates_context_eval :
    check (Rew (Term ("a") []) ("r") (Term ("b") [])) none
        [(some ("r"), 0)] [[Term ("c") []]]
      = .ok ((false, "b is not buildable"), [[Term ("c") [], Term ("a") []]])
    ∧ [[Term ("c") [], Term ("a") []]] ≠ [[Term ("c") []]] := by decide

/-! ## C7: monotonicity of `check` in its context -/

/-- C7: monotonicity fails on the code.  The two contexts bind `"s"` and
`"s2"` to lists with `[] ⊆ [Rew(a, s2, a)]` and `[] ⊆ []` — pointwise
containment as the claim requires — yet `check` succeeds in the smaller
context and fails in the larger one.  Cause: in the smaller run the first
`Comp` child's sub-derivation appends `a` to the *shared* `"s2"` list (the
`dict_add` aliasing of C4), which the second child then finds; in the
larger run the first child succeeds early by context membership, never
performs that append, and the second child fails.  Under the spec's
intended pure, non-mutating `check`, monotonicity holds; the aliasing
defect breaks it, so the claim is right and the code is wrong. -/
theorem check_not_monotonic_eval :
    (∀ x ∈ ([] : List Object),
        x ∈ [Rew (Term ("a") []) ("s2") (Term ("a") [])])
    ∧ (∀ x ∈ ([] : List Object), x ∈ ([] : List Object))
    ∧ (check (Comp (Rew (Term ("c") []) ("s")
              (Rew (Term ("a") []) ("s2") (Term ("a") [])))
            (Rew (Term ("b") []) ("s2") (Term ("a") [])))
        none [(some ("s"), 0), (some ("s2"), 1)] [[], []]).map (fun p => p.1.1)
      = .ok true
    ∧ (check (Comp (Rew (Term ("c") []) ("s")
              (Rew (Term ("a") []) ("s2") (Term ("a") [])))
            (Rew (Term ("b") []) ("s2") (Term ("a") [])))
        none [(some ("s"), 0), (some ("s2"), 1)]
        [[Rew (Term ("a") []) ("s2") (Term ("a") [])], []]).map (fun p => p.1.1)
      = .ok false := by decide

/-! ## C2: the `Rew` case of `check` -/

/-- C2 counterexample: for `Rew(B, r, Comp(A, Rew(A, r2, B)))` in the
empty context (which trivially does not contain the object), the code
fails — it checks the *unreduced* right child `Comp(A, Rew(A, r2, B))`,
whose `Comp` branch fails on `A` — while the claim's reading succeeds:
the right child reduces to `B`, which is found in the context extended
with the left `B` under `r`.  So `check` does not reduce the right child
before checking it, and the claimed equivalence is false. -/
theorem check_rew_claim_cex :
    ¬ (((check (Rew (Term ("B") []) ("r")
          (Comp (Term ("A") []) (Rew (Term ("A") []) ("r2") (Term ("B") []))))
          none [] []).map (fun p => p.1.1) = .ok true) ↔
       (((do
          let rr ← reduce (Comp (Term ("A") [])
            (Rew (Term ("A") []) ("r2") (Term ("B") [])))
          let p := dict_add [] [] (some ("r")) (Term ("B") [])
          check rr (some ("r")) p.1 p.2 :
            EM ((Bool × String) × Store)).map (fun p => p.1.1)) = .ok true)) := by
  decide

/-- C2 (amended): on a `Rew(l, s, r)` node not found in the context,
`check` equals checking the *unreduced* right child `r` under `s` in the
context extended by recording `reduce(l)` — the reduction applies to the
recorded left-hand side, not to the checked right-hand side (matching the
module's own docstring "result is buildable with the reduced pattern added
to context"). -/
theorem check_rew_amended (l : Object) (s : String) (r : Object)
    (rule : Option String) (d : Ctx) (σ : Store)
    (hmem : (match PyDict.get? d rule with
        | some ref => decide ((Rew l s r) ∈ σ.getD ref [])
        | none => false) = false) :
    check (Rew l s r) rule d σ = (do
      let lred ← reduce l
      let p := dict_add d σ (some s) lred
      check r (some s) p.1 p.2) := by
  rw [show Rew l s r = Object.mk ("Rew") (some s) [l, r] from rfl] at hmem ⊢
  rw [check]
  rw [hmem]
  simp

/-- C2 witness: the amended equation at the counterexample's input. -/
theorem check_rew_amended_witness :
    check (Rew (Term ("B") []) ("r")
        (Comp (Term ("A") []) (Rew (Term ("A") []) ("r2") (Term ("B") []))))
        none [] []
      = (do
        let lred ← reduce (Term ("B") [])
        let p := dict_add [] [] (some ("r")) lred
        check (Comp (Term ("A") []) (Rew (Term ("A") []) ("r2") (Term ("B") [])))
          (some ("r")) p.1 p.2) :=
  check_rew_amended (Term ("B") []) ("r")
    (Comp (Term ("A") []) (Rew (Term ("A") []) ("r2") (Term ("B") [])))
    none [] [] (by decide)

/-! ## C3: `undo` after a successful directive -/

/-- C3 counterexample: from the initial two-helper pipeline, the directive
`Axiom n, t` processes successfully; the alias helper's `axiom_forhook`
registered the alias `n ↦ t` with a `set_state` push of its own, but a
single `undo()` pops only the handling (goal) helper recorded on the
pipeline's `(directive, helper)` stack — afterwards the alias helper's
state is `[("n", t)]`, not its prior value `[]`, so the full prior state
(including alias registrations changed during forhooks) is not
restored. -/
theorem pipeline_undo_cex :
    (processAxiom ⟨HState.init [], HState.init GoalState.init, []⟩
        [Term ("n") [], Term ("t") []]).map (fun q => q.1) = .ok true
    ∧ (processAxiom ⟨HState.init [], HState.init GoalState.init, []⟩
        [Term ("n") [], Term ("t") []]).map
        (fun q => (pipelineUndo q.2).2.aliasH.state)
      = .ok [("n", Term ("t") [])]
    ∧ ([("n", Term ("t") [])] : AliasState) ≠ [] := by decide

/-- C3 (amended): after a successful `Axiom` directive, a single `undo()`
pops the pipeline's `(directive, helper)` pair and restores the handling
(goal) helper — proof term and generic context — to its exact prior
state; state changed by other helpers' forhooks (the alias registration)
persists.  The hypothesis is the source invariant that a helper's current
state is the top of its snapshot stack. -/
theorem pipeline_undo_amended (p : AxPipeline) (args : List Object)
    (p' : AxPipeline)
    (hstack : p.goalH.stack.head? = some p.goalH.state)
    (h : processAxiom p args = .ok (true, p')) :
    (pipelineUndo p').1 = (true, some ("Axiom"))
    ∧ (pipelineUndo p').2.goalH = p.goalH
    ∧ (pipelineUndo p').2.handler_stack = p.handler_stack := by
  cases hfh : aliasAxiomForhook p.aliasH args with
  | error e =>
    rw [processAxiom, hfh] at h
    simp [Bind.bind, Except.bind] at h
  | ok res =>
    obtain ⟨aH', args'⟩ := res
    rw [processAxiom, hfh] at h
    simp only [Bind.bind, Except.bind] at h
    cases hha : handleAxiom p.goalH.state args' with
    | mk succ gs' =>
      rw [hha] at h
      simp only [Pure.pure, Except.pure] at h
      injection h with h
      injection h with hsucc hp'
      subst hsucc
      rw [if_pos rfl] at hp'
      subst hp'
      cases hs : p.goalH.stack with
      | nil => rw [hs] at hstack; simp at hstack
      | cons top rest =>
        rw [hs] at hstack
        simp at hstack
        refine ⟨rfl, ?_, rfl⟩
        show (helperUndo (set_state p.goalH gs')).2 = p.goalH
        rw [set_state, helperUndo]
        rw [hs]
        show HState.mk top (top :: rest) = p.goalH
        cases hgoal : p.goalH with
        | mk st stk =>
          rw [hgoal] at hs hstack
          simp at hs hstack ⊢
          exact ⟨hstack, by rw [hs, hstack]⟩

/-- C3 witness: the amended statement at the counterexample's pipeline. -/
theorem pipeline_undo_amended_witness :
    (pipelineUndo pipelineAfterDirective).1 = (true, some ("Axiom"))
    ∧ (pipelineUndo pipelineAfterDirective).2.goalH = HState.init GoalState.init
    ∧ (pipelineUndo pipelineAfterDirective).2.handler_stack = [] :=
  pipeline_undo_amended ⟨HState.init [], HState.init GoalState.init, []⟩
    [Term ("n") [], Term ("t") []] pipelineAfterDirective (by decide) (by decide)

end Endive
